import Mathlib

/-!
Verification of the Intel CPU crawler's extraction and storage pipeline.

This file gives a shallow embedding of the pure computational core of the
crawler (`src/parser.py` and `src/database_manager.py`) and proves, or
refutes, the behavioural claims made about it.  Strings are modelled as
`List Char`; Python character classes (`\w`, `\s`) and `str.lower` are
modelled over their ASCII meaning, which covers every character the
specification pipeline manipulates.  Python dictionaries are modelled as
association lists with Python's insert/overwrite-in-place semantics.
-/

namespace CpuCrawler

/-- ASCII model of Python's regex class `\s` (space, tab, newline,
vertical tab, form feed, carriage return). -/
def isSpaceChar (c : Char) : Bool :=
  c.toNat = 32 || c.toNat = 9 || c.toNat = 10 || c.toNat = 11 || c.toNat = 12 || c.toNat = 13

/-- ASCII model of Python's regex class `\w` (digits, letters, underscore). -/
def isWordChar (c : Char) : Bool :=
  (48 ≤ c.toNat && c.toNat ≤ 57) || (65 ≤ c.toNat && c.toNat ≤ 90) ||
    (97 ≤ c.toNat && c.toNat ≤ 122) || c.toNat = 95

/-- ASCII model of `str.lower` on a single character. -/
def toLowerChar (c : Char) : Char :=
  if 65 ≤ c.toNat ∧ c.toNat ≤ 90 then Char.ofNat (c.toNat + 32) else c

/-- Characters kept by `re.sub(r'[^\w\s\-]', '', key)`: word characters,
whitespace and the hyphen (code 45). -/
def keepChar (c : Char) : Bool := isWordChar c || isSpaceChar c || c.toNat = 45

/-- `re.sub(r'\s+', ' ', s)`: every maximal run of whitespace becomes a
single space.  The flag records whether the previous character was
whitespace (i.e. we are inside a run that has already emitted its space). -/
def collapseWsAux : Bool → List Char → List Char
  | _, [] => []
  | prevWs, c :: rest =>
    if isSpaceChar c then
      if prevWs then collapseWsAux true rest else ' ' :: collapseWsAux true rest
    else c :: collapseWsAux false rest

def collapseWs (l : List Char) : List Char := collapseWsAux false l

def dropWhileRight (p : Char → Bool) (l : List Char) : List Char :=
  (l.reverse.dropWhile p).reverse

/-- Python `str.strip()`. -/
def stripChars (l : List Char) : List Char :=
  dropWhileRight isSpaceChar (l.dropWhile isSpaceChar)

/-- Python `str.replace(' ', '_')` on a single character. -/
def replaceSpaceChar (c : Char) : Char := if c.toNat = 32 then '_' else c

/-- Python `str.replace('-', '_')` on a single character. -/
def replaceHyphenChar (c : Char) : Char := if c.toNat = 45 then '_' else c

/-- `if clean_key.startswith(p): clean_key = clean_key[len(p):]`. -/
def dropIfLeading (p : List Char) (l : List Char) : List Char :=
  if p.isPrefixOf l then l.drop p.length else l

/-- `if clean_key.endswith(s): clean_key = clean_key[:-len(s)]`. -/
def dropIfTrailing (s : List Char) (l : List Char) : List Char :=
  if s.isSuffixOf l then l.take (l.length - s.length) else l

/-- Embedding of `IntelCpuParser._clean_specification_key`: strip
non-word/space/hyphen characters, collapse and strip whitespace, lowercase,
turn spaces and hyphens into underscores, then strip the known prefixes
`intel_`, `processor_`, `cpu_` and suffixes `_support`, `_technology`
(each tested once, in this order, on the current value). -/
def cleanSpecificationKey (key : List Char) : List Char :=
  if key = [] then []
  else
    dropIfTrailing "_technology".toList (dropIfTrailing "_support".toList
      (dropIfLeading "cpu_".toList (dropIfLeading "processor_".toList
        (dropIfLeading "intel_".toList
          ((((stripChars (collapseWs (key.filter keepChar))).map toLowerChar).map
            replaceSpaceChar).map replaceHyphenChar)))))

/-- A cleaned key that still begins with a removable prefix or ends with a
removable suffix; a second cleaning pass strips it further. -/
def hasRemovableAffix (l : List Char) : Bool :=
  "intel_".toList.isPrefixOf l || "processor_".toList.isPrefixOf l ||
    "cpu_".toList.isPrefixOf l || "_support".toList.isSuffixOf l ||
    "_technology".toList.isSuffixOf l

/-- A character the canonicalizer can emit: a word character that is not an
ASCII capital letter.  Every stage of a second cleaning pass fixes such
characters. -/
def GoodChar (c : Char) : Prop :=
  isWordChar c = true ∧ ¬(65 ≤ c.toNat ∧ c.toNat ≤ 90)

def GoodString (l : List Char) : Prop := ∀ c ∈ l, GoodChar c

/-! ### Text normalizer (modelled from the spec)

`normalize_unicode_text` is imported from `utils` in `parser.py`, but its
definition is not among the sources; only its callers are.  It is modelled
from the spec, §4.1: platform-specific Unicode variants (typographic
trademark symbols, non-breaking spaces) are mapped to plain equivalents and
repeated whitespace is collapsed. -/

/-- Modelled from the spec: the per-character replacement table of the
missing `normalize_unicode_text` — non-breaking space (U+00A0) to plain
space, the trademark sign (U+2122) to `(TM)`, the registered sign (U+00AE)
to `(R)`; every other character is kept. -/
def replaceUnicodeChar (c : Char) : List Char :=
  if c.toNat = 160 then [' ']
  else if c.toNat = 8482 then ['(', 'T', 'M', ')']
  else if c.toNat = 174 then ['(', 'R', ')']
  else [c]

/-- Modelled from the spec: `normalize_unicode_text` — apply the
replacement table, then collapse repeated whitespace. -/
def normalizeUnicodeText (l : List Char) : List Char :=
  collapseWs ((l.map replaceUnicodeChar).flatten)

def normalizeUnicodeTextS (s : String) : String := ⟨normalizeUnicodeText s.data⟩

/-! ### Dictionaries

Python `dict`s are modelled as association lists: assignment replaces the
value in place if the key is present and appends otherwise, preserving
insertion order, exactly like a Python `dict`. -/

/-- `m[k]` as `m.get(k)`: the value at `k`, if present. -/
def alGet {α : Type} (m : List (String × α)) (k : String) : Option α :=
  match m with
  | [] => none
  | (k1, v) :: rest => if k1 = k then some v else alGet rest k

/-- `m[k] = v`. -/
def alSet {α : Type} (m : List (String × α)) (k : String) (v : α) : List (String × α) :=
  match m with
  | [] => [(k, v)]
  | (k1, v1) :: rest => if k1 = k then (k, v) :: rest else (k1, v1) :: alSet rest k v

/-- `m.update(m2)`. -/
def alUpdate {α : Type} (m m2 : List (String × α)) : List (String × α) :=
  m2.foldl (fun acc kv => alSet acc kv.1 kv.2) m

/-- A flat specification mapping: canonical key to raw value. -/
abbrev Dict := List (String × String)

/-- The categorized specification structure: category name to flat mapping. -/
abbrev SpecDict := List (String × Dict)

/-- `specs[category][key]`, when both levels are present. -/
def specLookup (s : SpecDict) (c k : String) : Option String :=
  match alGet s c with
  | none => none
  | some d => alGet d k

/-- Embedding of `IntelCpuParser._normalize_specification_unicode`: apply
the text normalizer to every string value nested in the categorized-specs
structure (keys are left untouched). -/
def normalizeSpecificationUnicode (specs : SpecDict) : SpecDict :=
  specs.map (fun cd => (cd.1, cd.2.map (fun kv => (kv.1, normalizeUnicodeTextS kv.2))))

/-! ### Field categorizer and multi-strategy merge -/

/-- Python's substring test `w in s` for character lists. -/
def containsSublist (w : List Char) : List Char → Bool
  | [] => w.isEmpty
  | c :: rest => w.isPrefixOf (c :: rest) || containsSublist w rest

def anyWordIn (words : List String) (keyLower : List Char) : Bool :=
  words.any (fun w => containsSublist w.data keyLower)

/-- Embedding of `IntelCpuParser._categorize_specification`: first matching
keyword-membership rule wins, default `general`. -/
def categorizeSpecification (key : String) : String :=
  if anyWordIn ["core", "thread", "frequency", "turbo", "cache"] (key.data.map toLowerChar) then
    "cpu_specifications"
  else if anyWordIn ["memory", "ddr", "lpddr", "channel"] (key.data.map toLowerChar) then
    "memory_specifications"
  else if anyWordIn ["gpu", "graphics", "display", "resolution", "xe"] (key.data.map toLowerChar) then
    "gpu_specifications"
  else if anyWordIn ["npu", "ai", "tops", "neural"] (key.data.map toLowerChar) then
    "npu_specifications"
  else if anyWordIn ["power", "tdp", "watt", "temperature"] (key.data.map toLowerChar) then
    "package_specifications"
  else if anyWordIn ["pci", "thunderbolt", "usb", "expansion"] (key.data.map toLowerChar) then
    "expansion_options"
  else if anyWordIn ["security", "encryption", "trust", "guard"] (key.data.map toLowerChar) then
    "security_reliability"
  else "general"

/-- The per-page outputs of the four extraction strategies, which
`_extract_specifications` merges.  The strategies themselves parse HTML
through BeautifulSoup and are treated as the interface point of the
embedding: the structured-section strategy returns a categorized mapping,
the other three return flat canonical-key maps. -/
structure StrategyOutputs where
  sectionSpecs : SpecDict
  techRowSpecs : Dict
  tableSpecs : Dict
  legacySpecs : Dict

/-- The ten pre-seeded empty categories of `_extract_specifications`. -/
def initialSpecCategories : SpecDict :=
  [("essentials", []), ("cpu_specifications", []), ("memory_specifications", []),
    ("gpu_specifications", []), ("npu_specifications", []), ("expansion_options", []),
    ("package_specifications", []), ("advanced_technologies", []),
    ("security_reliability", []), ("supplemental_information", [])]

/-- `if category not in specs: specs[category] = {}` followed by
`specs[category][key] = value`. -/
def specInsert (s : SpecDict) (c k v : String) : SpecDict :=
  match alGet s c with
  | none => alSet s c (alSet [] k v)
  | some d => alSet s c (alSet d k v)

/-- Merge a flat strategy result into the categorized structure, key by
key, each key placed under its `_categorize_specification` category. -/
def mergeFlat (s : SpecDict) (flat : Dict) : SpecDict :=
  flat.foldl (fun acc kv => specInsert acc (categorizeSpecification kv.1) kv.1 kv.2) s

/-- The category membership lists of
`_categorize_legacy_specifications`, in source order. -/
def legacyCategoryKeyLists : List (String × List String) :=
  [("essentials",
      ["product_collection", "vertical_segment", "launch_date", "code_name", "instruction_set"]),
    ("cpu_specifications",
      ["total_cores", "performance_cores", "efficiency_cores", "total_threads",
        "max_turbo_frequency", "base_frequency", "performance_core_max_frequency",
        "efficiency_core_max_frequency", "performance_core_base_frequency",
        "efficiency_core_base_frequency", "turbo_boost_max_frequency",
        "cache_size", "smart_cache", "l1_cache", "l2_cache", "l3_cache", "lithography"]),
    ("memory_specifications",
      ["max_memory_size", "memory_channels", "memory_types", "memory_speed"]),
    ("gpu_specifications",
      ["gpu_name", "graphics_max_frequency", "graphics_base_frequency",
        "xe_cores", "execution_units"]),
    ("npu_specifications", ["npu_name", "npu_tops", "overall_tops", "ai_boost"]),
    ("expansion_options", ["socket"]),
    ("package_specifications",
      ["processor_base_power", "maximum_turbo_power", "minimum_assured_power",
        "tdp", "configurable_tdp_up", "configurable_tdp_down",
        "max_operating_temperature", "package_size", "tjunction"]),
    ("advanced_technologies",
      ["speed_shift", "turbo_boost", "enhanced_speedstep", "thermal_monitoring",
        "configurable_tdp"])]

/-- The category the legacy categorizer assigns a key to: first category
whose membership list contains the key (the loop breaks on the first hit),
else `supplemental_information`. -/
def chooseLegacyCategory (k : String) : String :=
  match legacyCategoryKeyLists.find? (fun cm => cm.2.contains k) with
  | some cm => cm.1
  | none => "supplemental_information"

/-- One step of the legacy categorization loop:
`categorized[chosen category][spec_key] = spec_value`. -/
def legacyFillStep (acc : SpecDict) (kv : String × String) : SpecDict :=
  alSet acc (chooseLegacyCategory kv.1)
    (alSet ((alGet acc (chooseLegacyCategory kv.1)).getD []) kv.1 kv.2)

/-- Embedding of `IntelCpuParser._categorize_legacy_specifications`: place
every key in its chosen category, then keep only non-empty categories. -/
def categorizeLegacySpecifications (legacy : Dict) : SpecDict :=
  (legacy.foldl legacyFillStep initialSpecCategories).filter (fun cd => !cd.2.isEmpty)

/-- `specs[category].update(category_specs)` (creating the category when
absent), folded over the legacy categorization. -/
def legacyFold (cl : SpecDict) (s : SpecDict) : SpecDict :=
  cl.foldl (fun acc cd => alSet acc cd.1 (alUpdate ((alGet acc cd.1).getD []) cd.2)) s

/-- The legacy keys not found in any category of the categorization (always
empty in practice, since the categorizer has a supplemental fallback). -/
def legacyUncategorized (cl : SpecDict) (legacy : Dict) : Dict :=
  legacy.filter (fun kv => !(cl.any (fun cd => (alGet cd.2 kv.1).isSome)))

/-- The legacy branch of `_extract_specifications`: merge each legacy
category into the structure with `dict.update`, then store the
uncategorized remainder (if any) under `legacy`. -/
def mergeLegacy (s : SpecDict) (legacy : Dict) : SpecDict :=
  if (legacyUncategorized (categorizeLegacySpecifications legacy) legacy).isEmpty then
    legacyFold (categorizeLegacySpecifications legacy) s
  else
    alSet (legacyFold (categorizeLegacySpecifications legacy) s) "legacy"
      (legacyUncategorized (categorizeLegacySpecifications legacy) legacy)

/-- `if legacy_specs:` — the legacy stage runs only when the regex strategy
found something. -/
def applyLegacyStage (s : SpecDict) (legacy : Dict) : SpecDict :=
  if legacy.isEmpty then s else mergeLegacy s legacy

/-- Embedding of the merge logic of `IntelCpuParser._extract_specifications`:
update the pre-seeded categories with the structured-section output, then
merge the modern tech-section-row output, then the generic-table output
(overwriting on key collision), then the legacy-regex output, and finally
normalize every string value. -/
def extractSpecifications (o : StrategyOutputs) : SpecDict :=
  normalizeSpecificationUnicode
    (applyLegacyStage
      (mergeFlat (mergeFlat (alUpdate initialSpecCategories o.sectionSpecs) o.techRowSpecs)
        o.tableSpecs)
      o.legacySpecs)

/-! ### Numeric coercion (`_safe_int`, `_safe_float`)

Values reaching the database layer are the raw strings of the parser (or
missing).  `_safe_int` extracts the first embedded digit run, `_safe_float`
the first embedded decimal number; Python floats are modelled as exact
rationals.  The `int(float(value))` fallback for digit-free strings is
modelled as absent: for ordinary digit-free text `float` raises and the
code returns `None`. -/

def digitsToNat (ds : List Char) : Nat :=
  ds.foldl (fun n c => 10 * n + (c.toNat - 48)) 0

/-- The suffix of the input starting at its first digit, if any — the
position where `re.search(r'(\d+)...')` begins its match. -/
def suffixAtFirstDigit : List Char → Option (List Char)
  | [] => none
  | c :: rest => if c.isDigit then some (c :: rest) else suffixAtFirstDigit rest

/-- Embedding of `PowerSpecDatabaseManager._safe_int`. -/
def safeInt (v : Option String) : Option Nat :=
  match v with
  | none => none
  | some s =>
    match suffixAtFirstDigit s.data with
    | some l => some (digitsToNat (l.takeWhile Char.isDigit))
    | none => none

/-- A parsed decimal literal with value `num / 10 ^ scale`.  Python floats
are modelled as exact decimals: the pipeline only ever copies these values
and tests them against zero, so the representation is faithful (it is finer
than float equality only across differently written literals, which no
claim compares). -/
structure DecimalVal where
  num : Nat
  scale : Nat
deriving DecidableEq

/-- The value matched by `\d+(?:\.\d+)?` at a position starting with a
digit: the maximal digit run, plus a fractional part when a dot followed
by at least one digit comes next. -/
def parseDecimalAt (l : List Char) : DecimalVal :=
  match l.drop (l.takeWhile Char.isDigit).length with
  | '.' :: r2 =>
    if (r2.takeWhile Char.isDigit).isEmpty then ⟨digitsToNat (l.takeWhile Char.isDigit), 0⟩
    else ⟨digitsToNat (l.takeWhile Char.isDigit ++ r2.takeWhile Char.isDigit),
      (r2.takeWhile Char.isDigit).length⟩
  | _ => ⟨digitsToNat (l.takeWhile Char.isDigit), 0⟩

/-- Embedding of `PowerSpecDatabaseManager._safe_float`. -/
def safeFloat (v : Option String) : Option DecimalVal :=
  match v with
  | none => none
  | some s =>
    match suffixAtFirstDigit s.data with
    | some l => some (parseDecimalAt l)
    | none => none

/-- Python truthiness of an optional integer: `None` and `0` are falsy. -/
def optNatTruthy : Option Nat → Bool
  | none => false
  | some n => decide (n ≠ 0)

/-- Python truthiness of an optional float: `None` and `0.0` are falsy. -/
def optFloatTruthy : Option DecimalVal → Bool
  | none => false
  | some q => decide (q.num ≠ 0)

/-! ### Code-name resolver -/

/-- Case-insensitive literal match: drop the (lowercase) pattern from the
head of the input, comparing lowercased characters. -/
def ciDropLit : List Char → List Char → Option (List Char)
  | [], l => some l
  | _, [] => none
  | p :: ps, c :: cs => if toLowerChar c = p then ciDropLit ps cs else none

/-- `re.sub(r'^products\s+formerly\s+', '', s, flags=IGNORECASE)`. -/
def stripProductsFormerly (l : List Char) : List Char :=
  match ciDropLit "products".toList l with
  | none => l
  | some r1 =>
    match r1 with
    | [] => l
    | c :: _ =>
      if isSpaceChar c then
        match ciDropLit "formerly".toList (r1.dropWhile isSpaceChar) with
        | none => l
        | some r3 =>
          match r3 with
          | [] => l
          | c2 :: _ => if isSpaceChar c2 then r3.dropWhile isSpaceChar else l
      else l

/-- Embedding of `PowerSpecDatabaseManager._clean_code_name`: strip the
localized `Products formerly` prefix, surrounding whitespace and trailing
colons; empty (or lone-colon) results become absent. -/
def cleanCodeName (codeName : Option String) : Option String :=
  match codeName with
  | none => none
  | some s =>
    if s.data.isEmpty then none
    else
      let s3 := (((stripProductsFormerly s.data |> stripChars).reverse.dropWhile
        (fun c => c == ':')).reverse)
      if s3.isEmpty then none
      else if s3 = ":".toList then none
      else some ⟨s3⟩

/-! ### The duplicate-safe store -/

/-- The parser-produced record as the database layer sees it: the fields of
`cpu_data` that `insert_cpu_specs` reads.  `url` and `name` are optional to
model dictionary access (`cpu_data['url']`) failing with a `KeyError` when
the key is missing. -/
structure CpuData where
  url : Option String
  name : Option String
  specifications : SpecDict
deriving DecidableEq

/-- The `insert_data` row of `insert_cpu_specs`: one value per column of
`cpu_power_specs`.  The `additional_specs` JSON blob is modelled as the
filtered structure it serializes. -/
structure InsertRow where
  url : String
  name : String
  total_cores : Option Nat
  performance_cores : Option Nat
  efficiency_cores : Option Nat
  total_threads : Option Nat
  max_turbo_frequency : Option DecimalVal
  base_frequency : Option DecimalVal
  performance_core_max_frequency : Option DecimalVal
  efficiency_core_max_frequency : Option DecimalVal
  performance_core_base_frequency : Option DecimalVal
  efficiency_core_base_frequency : Option DecimalVal
  turbo_boost_max_frequency : Option DecimalVal
  processor_base_power : Option DecimalVal
  maximum_turbo_power : Option DecimalVal
  minimum_assured_power : Option DecimalVal
  tdp : Option DecimalVal
  configurable_tdp_up : Option DecimalVal
  configurable_tdp_down : Option DecimalVal
  lithography : Option String
  process_node : Option String
  cache_size : Option DecimalVal
  smart_cache : Option DecimalVal
  l1_cache : Option String
  l2_cache : Option String
  l3_cache : Option DecimalVal
  max_memory_size : Option Nat
  memory_channels : Option Nat
  memory_types : Option String
  memory_speed : Option Nat
  gpu_name : Option String
  graphics_max_frequency : Option DecimalVal
  graphics_base_frequency : Option DecimalVal
  xe_cores : Option Nat
  execution_units : Option Nat
  npu_name : Option String
  npu_tops : Option Nat
  overall_tops : Option Nat
  socket : Option String
  max_operating_temperature : Option Nat
  package_size : Option String
  tjunction : Option Nat
  code_name : Option String
  product_collection : Option String
  vertical_segment : Option String
  launch_date : Option String
  instruction_set : Option String
  additional_specs : SpecDict
  scraper_version : String
deriving DecidableEq

/-- The category list `insert_cpu_specs` merges into `all_specs`, in
source order (later categories overwrite earlier ones). -/
def dbCategoryOrder : List String :=
  ["essentials", "cpu_specifications", "memory_specifications", "gpu_specifications",
    "npu_specifications", "expansion_options", "package_specifications",
    "advanced_technologies", "legacy"]

/-- `all_specs`: the flat merge of the categorized specifications. -/
def mergeAllSpecs (specs : SpecDict) : Dict :=
  dbCategoryOrder.foldl (fun acc c => alUpdate acc ((alGet specs c).getD [])) []

/-- The `insert_data` construction of `insert_cpu_specs`, including the
legacy-architecture fallback: when a total-core count is present (and
nonzero) but neither a performance- nor an efficiency-core count parses to
a nonzero value, all cores are taken as performance cores with zero
efficiency cores, and the general frequencies are mirrored into the
performance-core frequencies wherever those are absent or zero. -/
def buildInsertData (url name : String) (specs : SpecDict) : InsertRow :=
  let allSpecs := mergeAllSpecs specs
  let total_cores0 := safeInt (alGet allSpecs "total_cores")
  let performance_cores0 := safeInt (alGet allSpecs "performance_cores")
  let efficiency_cores0 := safeInt (alGet allSpecs "efficiency_cores")
  let isLegacy := optNatTruthy total_cores0 && !optNatTruthy performance_cores0 &&
    !optNatTruthy efficiency_cores0
  let max_turbo := safeFloat (alGet allSpecs "max_turbo_frequency")
  let base_freq := safeFloat (alGet allSpecs "base_frequency")
  let p_max0 := safeFloat (alGet allSpecs "performance_core_max_frequency")
  let p_base0 := safeFloat (alGet allSpecs "performance_core_base_frequency")
  { url := url
    name := name
    total_cores := total_cores0
    performance_cores := if isLegacy then total_cores0 else performance_cores0
    efficiency_cores := if isLegacy then some 0 else efficiency_cores0
    total_threads := safeInt (alGet allSpecs "total_threads")
    max_turbo_frequency := max_turbo
    base_frequency := base_freq
    performance_core_max_frequency :=
      if isLegacy && optFloatTruthy max_turbo && !optFloatTruthy p_max0 then max_turbo else p_max0
    efficiency_core_max_frequency := safeFloat (alGet allSpecs "efficiency_core_max_frequency")
    performance_core_base_frequency :=
      if isLegacy && optFloatTruthy base_freq && !optFloatTruthy p_base0 then base_freq else p_base0
    efficiency_core_base_frequency := safeFloat (alGet allSpecs "efficiency_core_base_frequency")
    turbo_boost_max_frequency := safeFloat (alGet allSpecs "turbo_boost_max_frequency")
    processor_base_power := safeFloat (alGet allSpecs "processor_base_power")
    maximum_turbo_power := safeFloat (alGet allSpecs "maximum_turbo_power")
    minimum_assured_power := safeFloat (alGet allSpecs "minimum_assured_power")
    tdp := safeFloat (alGet allSpecs "tdp")
    configurable_tdp_up := safeFloat (alGet allSpecs "configurable_tdp_up")
    configurable_tdp_down := safeFloat (alGet allSpecs "configurable_tdp_down")
    lithography := alGet allSpecs "lithography"
    process_node := alGet allSpecs "process_node"
    cache_size := safeFloat (alGet allSpecs "cache_size")
    smart_cache := safeFloat (alGet allSpecs "smart_cache")
    l1_cache := alGet allSpecs "l1_cache"
    l2_cache := alGet allSpecs "l2_cache"
    l3_cache := safeFloat (alGet allSpecs "l3_cache")
    max_memory_size := safeInt (alGet allSpecs "max_memory_size")
    memory_channels := safeInt (alGet allSpecs "memory_channels")
    memory_types := alGet allSpecs "memory_types"
    memory_speed := safeInt (alGet allSpecs "memory_speed")
    gpu_name := alGet allSpecs "gpu_name"
    graphics_max_frequency := safeFloat (alGet allSpecs "graphics_max_frequency")
    graphics_base_frequency := safeFloat (alGet allSpecs "graphics_base_frequency")
    xe_cores := safeInt (alGet allSpecs "xe_cores")
    execution_units := safeInt (alGet allSpecs "execution_units")
    npu_name := alGet allSpecs "npu_name"
    npu_tops := safeInt (alGet allSpecs "npu_tops")
    overall_tops := safeInt (alGet allSpecs "overall_tops")
    socket := alGet allSpecs "socket"
    max_operating_temperature := safeInt (alGet allSpecs "max_operating_temperature")
    package_size := alGet allSpecs "package_size"
    tjunction := safeInt (alGet allSpecs "tjunction")
    code_name := cleanCodeName (alGet allSpecs "code_name")
    product_collection := alGet allSpecs "product_collection"
    vertical_segment := alGet allSpecs "vertical_segment"
    launch_date := alGet allSpecs "launch_date"
    instruction_set := alGet allSpecs "instruction_set"
    additional_specs := specs.filter (fun cd => decide (cd.1 ≠ "legacy") && !cd.2.isEmpty)
    scraper_version := "1.0" }

/-- `_cpu_exists`: duplicate check on the source identifier. -/
def dbHasUrl (db : List InsertRow) (u : String) : Bool :=
  db.any (fun r => r.url == u)

/-- The body of `insert_cpu_specs` inside its `try`: dictionary access to a
missing key raises (`KeyError`), a duplicate returns a soft `false`,
otherwise the row is appended (the insert commits atomically). -/
def insertCpuSpecsBody (db : List InsertRow) (cpu : CpuData) :
    Except String (List InsertRow × Bool) :=
  match cpu.url with
  | none => Except.error "KeyError: url"
  | some u =>
    if dbHasUrl db u then Except.ok (db, false)
    else
      match cpu.name with
      | none => Except.error "KeyError: name"
      | some nm => Except.ok (db ++ [buildInsertData u nm cpu.specifications], true)

/-- Embedding of `PowerSpecDatabaseManager.insert_cpu_specs`: the `except`
clauses turn every raised error into a soft `false` with the store
unchanged (an exception before commit leaves no partial write). -/
def insertCpuSpecs (db : List InsertRow) (cpu : CpuData) : List InsertRow × Bool :=
  match insertCpuSpecsBody db cpu with
  | Except.ok r => r
  | Except.error _ => (db, false)

/-- Embedding of `PowerSpecDatabaseManager.get_cpu_count`. -/
def getCpuCount (db : List InsertRow) : Nat := db.length

def exceptIsOk {ε α : Type} : Except ε α → Bool
  | Except.ok _ => true
  | Except.error _ => false

/-! ### The modeling export -/

/-- The column subset selected by `export_for_modeling`. -/
structure ExportRow where
  name : String
  total_cores : Option Nat
  performance_cores : Option Nat
  efficiency_cores : Option Nat
  max_turbo_frequency : Option DecimalVal
  base_frequency : Option DecimalVal
  performance_core_max_frequency : Option DecimalVal
  efficiency_core_max_frequency : Option DecimalVal
  processor_base_power : Option DecimalVal
  maximum_turbo_power : Option DecimalVal
  minimum_assured_power : Option DecimalVal
  lithography : Option String
  cache_size : Option DecimalVal
  memory_channels : Option Nat
  memory_speed : Option Nat
  graphics_max_frequency : Option DecimalVal
  xe_cores : Option Nat
  npu_tops : Option Nat
  overall_tops : Option Nat
  max_operating_temperature : Option Nat
  vertical_segment : Option String
  launch_date : Option String
deriving DecidableEq

def exportRowOf (r : InsertRow) : ExportRow :=
  { name := r.name
    total_cores := r.total_cores
    performance_cores := r.performance_cores
    efficiency_cores := r.efficiency_cores
    max_turbo_frequency := r.max_turbo_frequency
    base_frequency := r.base_frequency
    performance_core_max_frequency := r.performance_core_max_frequency
    efficiency_core_max_frequency := r.efficiency_core_max_frequency
    processor_base_power := r.processor_base_power
    maximum_turbo_power := r.maximum_turbo_power
    minimum_assured_power := r.minimum_assured_power
    lithography := r.lithography
    cache_size := r.cache_size
    memory_channels := r.memory_channels
    memory_speed := r.memory_speed
    graphics_max_frequency := r.graphics_max_frequency
    xe_cores := r.xe_cores
    npu_tops := r.npu_tops
    overall_tops := r.overall_tops
    max_operating_temperature := r.max_operating_temperature
    vertical_segment := r.vertical_segment
    launch_date := r.launch_date }

/-- `ORDER BY name`, modelled as an insertion sort (any name-sorted
permutation of the rows; membership is what the claims need). -/
def insertSortedByName (r : InsertRow) : List InsertRow → List InsertRow
  | [] => [r]
  | r2 :: rest => if r.name ≤ r2.name then r :: r2 :: rest else r2 :: insertSortedByName r rest

def sortByName (db : List InsertRow) : List InsertRow := db.foldr insertSortedByName []

/-- Embedding of `PowerSpecDatabaseManager.export_for_modeling`: select the
modeling columns of every row in name order, keeping only rows whose
`processor_base_power` and `total_cores` are truthy. -/
def exportForModeling (db : List InsertRow) : List ExportRow :=
  ((sortByName db).map exportRowOf).filter
    (fun e => optFloatTruthy e.processor_base_power && optNatTruthy e.total_cores)

/-- A merged-spec input for the legacy-fallback claim: eight total cores,
no performance/efficiency split, ordinary nonzero frequencies. -/
def specsLegacyEx : SpecDict :=
  [("cpu_specifications",
    [("total_cores", "8"), ("max_turbo_frequency", "3.5 GHz"), ("base_frequency", "2.0 GHz")])]

/-- A merged-spec input whose general turbo frequency parses to zero. -/
def specsZeroFreqEx : SpecDict :=
  [("cpu_specifications", [("total_cores", "8"), ("max_turbo_frequency", "0 GHz")])]

/-! ### Process-node (lithography) resolver

`_clean_lithography_value` and `_extract_lithography_enhanced` are built
from a fixed set of regular expressions; each is embedded as an explicit
matcher over character lists, matched case-insensitively by lowercasing the
input once.  `re.search` existence is modelled by testing the matcher at
every suffix. -/

/-- Does the prefix matcher accept at some position (`re.search`)? -/
def anySuffix (m : List Char → Bool) : List Char → Bool
  | [] => m []
  | l@(_ :: rest) => m l || anySuffix m rest

/-- `\b` right after a word character: next character absent or non-word. -/
def wordBoundaryAt : List Char → Bool
  | [] => true
  | c :: _ => !isWordChar c

/-- `\d+\s*nm` at this position. -/
def matchDigitsNm (s : List Char) : Bool :=
  match s with
  | c :: _ =>
    c.isDigit && "nm".toList.isPrefixOf ((s.dropWhile Char.isDigit).dropWhile isSpaceChar)
  | [] => false

/-- `[3-9]\b` or `1[0-9]\b` at this position (used after `intel\s+`). -/
def nodeDigitsBoundary (r2 : List Char) : Bool :=
  match r2 with
  | d :: rest2 =>
    ((51 ≤ d.toNat && d.toNat ≤ 57) && wordBoundaryAt rest2) ||
      (d.toNat = 49 &&
        match rest2 with
        | e :: rest3 => e.isDigit && wordBoundaryAt rest3
        | [] => false)
  | [] => false

/-- `intel\s+(?:[3-9]|1[0-9])\b` at this position. -/
def matchIntelNode (s : List Char) : Bool :=
  "intel".toList.isPrefixOf s &&
    (match s.drop 5 with
     | c :: _ => isSpaceChar c && nodeDigitsBoundary ((s.drop 5).dropWhile isSpaceChar)
     | [] => false)

/-- `n\d+[a-z]?\b` at this position. -/
def matchNodeShort (s : List Char) : Bool :=
  match s with
  | 'n' :: r1 =>
    match r1 with
    | c :: _ =>
      c.isDigit &&
        (match r1.dropWhile Char.isDigit with
         | e :: r3 => if 97 ≤ e.toNat && e.toNat ≤ 122 then wordBoundaryAt r3 else !isWordChar e
         | [] => true)
    | [] => false
  | _ => false

/-- `\d+\s*nanometer` at this position. -/
def matchDigitsNanometer (s : List Char) : Bool :=
  match s with
  | c :: _ =>
    c.isDigit &&
      "nanometer".toList.isPrefixOf ((s.dropWhile Char.isDigit).dropWhile isSpaceChar)
  | [] => false

/-- `\s*\+` at this position. -/
def plusAfterWs (l : List Char) : Bool :=
  match l.dropWhile isSpaceChar with
  | '+' :: _ => true
  | _ => false

/-- `\d+\s*nm\s*\+` at this position. -/
def matchNmPlus (s : List Char) : Bool :=
  match s with
  | c :: _ =>
    c.isDigit &&
      (let r := (s.dropWhile Char.isDigit).dropWhile isSpaceChar
       "nm".toList.isPrefixOf r && plusAfterWs (r.drop 2))
  | [] => false

/-- `intel\s+(?:[3-9]|1[0-9])\s*\+` at this position. -/
def matchIntelNodePlus (s : List Char) : Bool :=
  "intel".toList.isPrefixOf s &&
    (match s.drop 5 with
     | c :: _ =>
       isSpaceChar c &&
         (match (s.drop 5).dropWhile isSpaceChar with
          | d :: rest2 =>
            ((51 ≤ d.toNat && d.toNat ≤ 57) && plusAfterWs rest2) ||
              (d.toNat = 49 &&
                match rest2 with
                | e :: rest3 => e.isDigit && plusAfterWs rest3
                | [] => false)
          | [] => false)
     | [] => false)

/-- `\d+\s*nm\s+(?:finfet|gaafet)` at this position. -/
def matchNmTransistor (s : List Char) : Bool :=
  match s with
  | c :: _ =>
    c.isDigit &&
      (let r := (s.dropWhile Char.isDigit).dropWhile isSpaceChar
       "nm".toList.isPrefixOf r &&
         (match r.drop 2 with
          | c2 :: _ =>
            isSpaceChar c2 &&
              (let r3 := (r.drop 2).dropWhile isSpaceChar
               "finfet".toList.isPrefixOf r3 || "gaafet".toList.isPrefixOf r3)
          | [] => false))
  | [] => false

/-- `tsmc\s+n\d+` at this position. -/
def matchTsmcN (s : List Char) : Bool :=
  "tsmc".toList.isPrefixOf s &&
    (match s.drop 4 with
     | c :: _ =>
       isSpaceChar c &&
         (match (s.drop 4).dropWhile isSpaceChar with
          | 'n' :: d :: _ => d.isDigit
          | _ => false)
     | [] => false)

/-- `samsung\s+\d+\s*nm` at this position. -/
def matchSamsungNm (s : List Char) : Bool :=
  "samsung".toList.isPrefixOf s &&
    (match s.drop 7 with
     | c :: _ =>
       isSpaceChar c &&
         (match (s.drop 7).dropWhile isSpaceChar with
          | d :: _ =>
            d.isDigit &&
              "nm".toList.isPrefixOf
                ((((s.drop 7).dropWhile isSpaceChar).dropWhile Char.isDigit).dropWhile isSpaceChar)
          | [] => false)
     | [] => false)

/-- `globalfoundries\s+\d+\s*nm` at this position. -/
def matchGfNm (s : List Char) : Bool :=
  "globalfoundries".toList.isPrefixOf s &&
    (match s.drop 15 with
     | c :: _ =>
       isSpaceChar c &&
         (match (s.drop 15).dropWhile isSpaceChar with
          | d :: _ =>
            d.isDigit &&
              "nm".toList.isPrefixOf
                ((((s.drop 15).dropWhile isSpaceChar).dropWhile Char.isDigit).dropWhile isSpaceChar)
          | [] => false)
     | [] => false)

/-- The whitelist of valid process-node shapes, applied to the lowercased
candidate, in source order. -/
def validLithographyValue (lv : List Char) : Bool :=
  anySuffix matchDigitsNm lv || anySuffix matchIntelNode lv || anySuffix matchNodeShort lv ||
    anySuffix matchDigitsNanometer lv || anySuffix matchNmPlus lv ||
    anySuffix matchIntelNodePlus lv || anySuffix matchNmTransistor lv ||
    anySuffix matchTsmcN lv || anySuffix matchSamsungNm lv || anySuffix matchGfNm lv

/-- Known non-process Intel terms, rejected as false positives. -/
def nonProcessIntelTerms : List String :=
  ["intel 64", "intel 32", "intel x86", "intel x64", "intel sse", "intel avx",
    "intel ht", "intel vt"]

/-- One alternative of `^(?:using|with|on|at|by)\s+`: the word followed by
at least one whitespace character, all of which are consumed. -/
def tryStripPrep (w : String) (v : List Char) : Option (List Char) :=
  match ciDropLit w.toList v with
  | none => none
  | some r =>
    match r with
    | c :: _ => if isSpaceChar c then some (r.dropWhile isSpaceChar) else none
    | [] => none

def stripLeadingPrep (v : List Char) : List Char :=
  (tryStripPrep "using" v <|> tryStripPrep "with" v <|> tryStripPrep "on" v <|>
    tryStripPrep "at" v <|> tryStripPrep "by" v).getD v

/-- One alternative of `\s+(?:process|technology|...)$`: the value ends
with the word preceded by at least one whitespace character; the word and
all contiguous whitespace before it are removed. -/
def tryStripQual (w : String) (v : List Char) : Option (List Char) :=
  match ciDropLit w.toList.reverse v.reverse with
  | none => none
  | some r =>
    match r with
    | c :: _ => if isSpaceChar c then some (r.dropWhile isSpaceChar).reverse else none
    | [] => none

def stripTrailingQual (v : List Char) : List Char :=
  (tryStripQual "process" v <|> tryStripQual "technology" v <|> tryStripQual "node" v <|>
    tryStripQual "class" v <|> tryStripQual "generation" v <|> tryStripQual "finfet" v <|>
    tryStripQual "gaafet" v).getD v

/-- Embedding of `IntelCpuParser._clean_lithography_value`: strip leading
prepositions and trailing qualifiers, strip and collapse whitespace, drop
brackets, reject known non-process terms, and validate against the
process-node whitelist. -/
def cleanLithographyValue (value : List Char) : Option (List Char) :=
  if value.isEmpty || value.length < 2 then none
  else
    let v5 := (collapseWs (stripChars (stripTrailingQual (stripLeadingPrep value)))).filter
      (fun c => !(c == '(' || c == ')' || c == '[' || c == ']'))
    if nonProcessIntelTerms.any (fun t => v5.map toLowerChar = t.toList) then none
    else if validLithographyValue (v5.map toLowerChar) then some v5
    else none

/-- The captured group of
`(?:cpu\s+)?lithography\s*[:\s]+([^\n\r<>]+?)(?=\s*(?:\n|\r|<|$))` once the
label has matched: consume the colon/whitespace separator run, take the
rest of the line (stopping before `\n`, `\r`, `<`, `>`), trim its trailing
whitespace, and demand that the stop was a line end, `<`, or the end of
the text.  (The degenerate whitespace-only capture the lazy group can
produce is under the two-character minimum of the cleaner either way.) -/
def lithoCaptureAfterLabel (rest : List Char) : Option (List Char) :=
  match rest with
  | c :: _ =>
    if c == ':' || isSpaceChar c then
      let r := rest.dropWhile (fun c2 => c2 == ':' || isSpaceChar c2)
      let seg := r.takeWhile (fun c2 => !(c2 == '\n' || c2 == '\r' || c2 == '<' || c2 == '>'))
      let stoppedOk := match r.drop seg.length with
        | [] => true
        | c2 :: _ => c2 == '\n' || c2 == '\r' || c2 == '<'
      let capture := dropWhileRight isSpaceChar seg
      if stoppedOk && !capture.isEmpty then some capture else none
    else none
  | [] => none

/-- The regex pass of `_extract_lithography_enhanced`: try every
occurrence of the lithography label in document order and return the first
paired value that survives cleaning.  (The optional `cpu\s+` label prefix
does not change the captured group.) -/
def lithoScanText : List Char → Option (List Char)
  | [] => none
  | l@(_ :: rest) =>
    match (match ciDropLit "lithography".toList l with
           | some r => (lithoCaptureAfterLabel r).bind cleanLithographyValue
           | none => none) with
    | some v => some v
    | none => lithoScanText rest

def lithographyTableKeywords : List String :=
  ["lithography", "process", "technology", "node", "fabrication", "manufacturing", "silicon"]

def lithographyDlKeywords : List String :=
  ["lithography", "process", "technology", "node", "fabrication", "manufacturing"]

/-- The fallback loops of `_extract_lithography_fallback` over key/value
pairs harvested from tables or definition lists: first pair whose key
contains a process keyword and whose value survives cleaning. -/
def firstLithoFromPairs (keywords : List String) :
    List (List Char × List Char) → Option (List Char)
  | [] => none
  | (k, v) :: rest =>
    if keywords.any (fun w => containsSublist w.toList (k.map toLowerChar)) then
      match cleanLithographyValue v with
      | some c => some c
      | none => firstLithoFromPairs keywords rest
    else firstLithoFromPairs keywords rest

/-- Embedding of `IntelCpuParser._extract_lithography_enhanced` with its
`_extract_lithography_fallback`: the regex pass over the flattened text,
then the table rows, then the definition-list pairs. -/
def extractLithographyEnhanced (text : List Char)
    (tableRows dlPairs : List (List Char × List Char)) : Option (List Char) :=
  match lithoScanText text with
  | some v => some v
  | none =>
    match firstLithoFromPairs lithographyTableKeywords tableRows with
    | some v => some v
    | none => firstLithoFromPairs lithographyDlKeywords dlPairs

/-! ### Character-level lemmas for the key canonicalizer -/

theorem toNat_charOfNat_small (n : Nat) (h1 : n < 55296) : (Char.ofNat n).toNat = n := by
  have hv : n.isValidChar := Or.inl h1
  simp [Char.ofNat, hv, Char.ofNatAux, Char.toNat, UInt32.toNat, BitVec.toNat_ofNatLt]

theorem toLowerChar_toNat (c : Char) :
    (toLowerChar c).toNat = if 65 ≤ c.toNat ∧ c.toNat ≤ 90 then c.toNat + 32 else c.toNat := by
  unfold toLowerChar
  split
  · next h => exact toNat_charOfNat_small _ (by omega)
  · rfl

theorem replaceSpaceChar_toNat (c : Char) :
    (replaceSpaceChar c).toNat = if c.toNat = 32 then 95 else c.toNat := by
  unfold replaceSpaceChar
  split
  · decide
  · rfl

theorem replaceHyphenChar_toNat (c : Char) :
    (replaceHyphenChar c).toNat = if c.toNat = 45 then 95 else c.toNat := by
  unfold replaceHyphenChar
  split
  · decide
  · rfl

theorem GoodChar.keep {c : Char} (h : GoodChar c) : keepChar c = true := by
  simp [keepChar, h.1]

theorem GoodChar.notSpace {c : Char} (h : GoodChar c) : isSpaceChar c = false := by
  obtain ⟨hw, -⟩ := h
  simp [isWordChar] at hw
  simp [isSpaceChar]
  omega

theorem GoodChar.lower_eq {c : Char} (h : GoodChar c) : toLowerChar c = c := by
  unfold toLowerChar
  exact if_neg h.2

theorem GoodChar.replaceSpace_eq {c : Char} (h : GoodChar c) : replaceSpaceChar c = c := by
  have hw := h.1
  simp [isWordChar] at hw
  unfold replaceSpaceChar
  exact if_neg (by omega)

theorem GoodChar.replaceHyphen_eq {c : Char} (h : GoodChar c) : replaceHyphenChar c = c := by
  have hw := h.1
  simp [isWordChar] at hw
  unfold replaceHyphenChar
  exact if_neg (by omega)

/-- A kept character that is either a plain space or not whitespace (the
only characters surviving collapse and strip), pushed through lowercasing
and the two underscore replacements, becomes a `GoodChar`. -/
theorem goodChar_of_keep {a : Char} (h : keepChar a = true)
    (hs : isSpaceChar a = false ∨ a.toNat = 32) :
    GoodChar (replaceHyphenChar (replaceSpaceChar (toLowerChar a))) := by
  simp [keepChar, isWordChar, isSpaceChar] at h
  simp [isSpaceChar] at hs
  have h1 := toLowerChar_toNat a
  have h2 := replaceSpaceChar_toNat (toLowerChar a)
  have h3 := replaceHyphenChar_toNat (replaceSpaceChar (toLowerChar a))
  constructor
  · simp [isWordChar]
    split_ifs at h1 h2 h3 <;> omega
  · split_ifs at h1 h2 h3 <;> omega

/-! ### Membership and fixed-point lemmas for the pipeline stages -/

theorem mem_collapseWsAux {c : Char} :
    ∀ (l : List Char) (b : Bool), c ∈ collapseWsAux b l →
      c = ' ' ∨ (c ∈ l ∧ isSpaceChar c = false)
  | [], _, h => by simp [collapseWsAux] at h
  | a :: rest, b, h => by
    by_cases hs : isSpaceChar a = true
    · by_cases hb : b = true
      · subst hb
        simp [collapseWsAux, hs] at h
        rcases mem_collapseWsAux rest true h with h' | ⟨h1, h2⟩
        · exact Or.inl h'
        · exact Or.inr ⟨List.mem_cons_of_mem _ h1, h2⟩
      · have hb' : b = false := by revert hb; cases b <;> simp
        subst hb'
        simp [collapseWsAux, hs] at h
        rcases h with h' | h'
        · exact Or.inl h'
        · rcases mem_collapseWsAux rest true h' with h'' | ⟨h1, h2⟩
          · exact Or.inl h''
          · exact Or.inr ⟨List.mem_cons_of_mem _ h1, h2⟩
    · have hs' : isSpaceChar a = false := by revert hs; cases isSpaceChar a <;> simp
      simp [collapseWsAux, hs'] at h
      rcases h with h' | h'
      · subst h'; exact Or.inr ⟨List.mem_cons_self _ _, hs'⟩
      · rcases mem_collapseWsAux rest false h' with h'' | ⟨h1, h2⟩
        · exact Or.inl h''
        · exact Or.inr ⟨List.mem_cons_of_mem _ h1, h2⟩

theorem mem_of_mem_dropWhile {c : Char} {p : Char → Bool} :
    ∀ {l : List Char}, c ∈ l.dropWhile p → c ∈ l
  | [], h => h
  | a :: rest, h => by
    by_cases ha : p a = true
    · simp [List.dropWhile, ha] at h
      exact List.mem_cons_of_mem _ (mem_of_mem_dropWhile h)
    · have ha' : p a = false := by revert ha; cases p a <;> simp
      simpa [List.dropWhile, ha'] using h

theorem mem_of_mem_stripChars {c : Char} {l : List Char} (h : c ∈ stripChars l) : c ∈ l := by
  unfold stripChars dropWhileRight at h
  rw [List.mem_reverse] at h
  have h1 := mem_of_mem_dropWhile h
  rw [List.mem_reverse] at h1
  exact mem_of_mem_dropWhile h1

theorem dropIfLeading_of_neg {p l : List Char} (h : p.isPrefixOf l = false) :
    dropIfLeading p l = l := by
  unfold dropIfLeading
  simp only [h]
  rfl

theorem dropIfTrailing_of_neg {p l : List Char} (h : p.isSuffixOf l = false) :
    dropIfTrailing p l = l := by
  unfold dropIfTrailing
  simp only [h]
  rfl

theorem mem_of_mem_dropIfLeading {c : Char} {p l : List Char}
    (h : c ∈ dropIfLeading p l) : c ∈ l := by
  unfold dropIfLeading at h
  split at h
  · exact (List.drop_sublist _ _).subset h
  · exact h

theorem mem_of_mem_dropIfTrailing {c : Char} {p l : List Char}
    (h : c ∈ dropIfTrailing p l) : c ∈ l := by
  unfold dropIfTrailing at h
  split at h
  · exact (List.take_sublist _ _).subset h
  · exact h

/-- Every character the canonicalizer emits is a `GoodChar`. -/
theorem goodString_cleanSpecificationKey (k : List Char) :
    GoodString (cleanSpecificationKey k) := by
  intro c hc
  unfold cleanSpecificationKey at hc
  split at hc
  · simp at hc
  · have hc1 := mem_of_mem_dropIfLeading <| mem_of_mem_dropIfLeading <|
      mem_of_mem_dropIfLeading <| mem_of_mem_dropIfTrailing <| mem_of_mem_dropIfTrailing hc
    simp only [List.mem_map] at hc1
    obtain ⟨b1, ⟨b2, ⟨a, ha, rfl⟩, rfl⟩, rfl⟩ := hc1
    have hks : keepChar a = true ∧ (isSpaceChar a = false ∨ a.toNat = 32) := by
      rcases mem_collapseWsAux _ _ (mem_of_mem_stripChars ha) with h' | ⟨h1, h2⟩
      · subst h'; exact ⟨by decide, Or.inr (by decide)⟩
      · exact ⟨List.of_mem_filter h1, Or.inl h2⟩
    exact goodChar_of_keep hks.1 hks.2

theorem filter_keep_of_good {l : List Char} (h : GoodString l) : l.filter keepChar = l :=
  List.filter_eq_self.mpr fun c hc => (h c hc).keep

theorem collapseWsAux_of_noSpace :
    ∀ (l : List Char) (b : Bool), (∀ c ∈ l, isSpaceChar c = false) → collapseWsAux b l = l
  | [], _, _ => rfl
  | a :: rest, b, h => by
    have ha := h a (List.mem_cons_self _ _)
    simp [collapseWsAux, ha]
    exact collapseWsAux_of_noSpace rest false fun c hc => h c (List.mem_cons_of_mem _ hc)

theorem dropWhile_of_noSpace {l : List Char} (h : ∀ c ∈ l, isSpaceChar c = false) :
    l.dropWhile isSpaceChar = l := by
  cases l with
  | nil => rfl
  | cons a rest => simp [List.dropWhile, h a (List.mem_cons_self _ _)]

theorem stripChars_of_good {l : List Char} (h : GoodString l) : stripChars l = l := by
  unfold stripChars dropWhileRight
  rw [dropWhile_of_noSpace fun c hc => (h c hc).notSpace]
  rw [dropWhile_of_noSpace fun c hc => (h c (List.mem_reverse.mp hc)).notSpace]
  exact List.reverse_reverse l

theorem map_eq_self_of_fix {f : Char → Char} :
    ∀ {l : List Char}, (∀ c ∈ l, f c = c) → l.map f = l
  | [], _ => rfl
  | a :: rest, h => by
    simp only [List.map_cons, h a (List.mem_cons_self _ _)]
    rw [map_eq_self_of_fix fun c hc => h c (List.mem_cons_of_mem _ hc)]

/-- On a string of `GoodChar`s, the canonicalizer reduces to the five affix
strips. -/
theorem cleanSpecificationKey_of_good {l : List Char} (h : GoodString l) :
    cleanSpecificationKey l =
      dropIfTrailing "_technology".toList (dropIfTrailing "_support".toList
        (dropIfLeading "cpu_".toList (dropIfLeading "processor_".toList
          (dropIfLeading "intel_".toList l)))) := by
  unfold cleanSpecificationKey
  split
  · next he => subst he; decide
  · rw [filter_keep_of_good h]
    unfold collapseWs
    rw [collapseWsAux_of_noSpace _ _ fun c hc => (h c hc).notSpace]
    rw [stripChars_of_good h]
    rw [map_eq_self_of_fix fun c hc => (h c hc).lower_eq]
    rw [map_eq_self_of_fix fun c hc => (h c hc).replaceSpace_eq]
    rw [map_eq_self_of_fix fun c hc => (h c hc).replaceHyphen_eq]

/-! ### C2: idempotence of key canonicalization -/

/-- C2 counterexample: key canonicalization is not idempotent.  For the raw
key `intel_intel_x` the first cleaning strips one `intel_` prefix, yielding
`intel_x`; a second cleaning strips the remaining `intel_`, yielding `x`. -/
theorem cleanSpecificationKey_not_idempotent :
    cleanSpecificationKey (cleanSpecificationKey "intel_intel_x".toList) ≠
      cleanSpecificationKey "intel_intel_x".toList := by decide

/-- C2 (amended): key canonicalization is idempotent on every input whose
cleaned form neither starts with a removable prefix (`intel_`, `processor_`,
`cpu_`) nor ends with a removable suffix (`_support`, `_technology`). -/
theorem cleanSpecificationKey_idempotent_of_no_affix (k : List Char)
    (h : hasRemovableAffix (cleanSpecificationKey k) = false) :
    cleanSpecificationKey (cleanSpecificationKey k) = cleanSpecificationKey k := by
  simp only [hasRemovableAffix, Bool.or_eq_false_iff] at h
  obtain ⟨⟨⟨⟨h1, h2⟩, h3⟩, h4⟩, h5⟩ := h
  rw [cleanSpecificationKey_of_good (goodString_cleanSpecificationKey k),
    dropIfLeading_of_neg h1, dropIfLeading_of_neg h2, dropIfLeading_of_neg h3,
    dropIfTrailing_of_neg h4, dropIfTrailing_of_neg h5]

/-- C2 witness: the hypothesis and conclusion of
`cleanSpecificationKey_idempotent_of_no_affix` at the concrete raw key
`Total Cores`. -/
theorem cleanSpecificationKey_idempotent_witness :
    hasRemovableAffix (cleanSpecificationKey "Total Cores".toList) = false ∧
      cleanSpecificationKey (cleanSpecificationKey "Total Cores".toList) =
        cleanSpecificationKey "Total Cores".toList :=
  ⟨by decide, cleanSpecificationKey_idempotent_of_no_affix _ (by decide)⟩

/-! ### C8: totality and emptiness behaviour of key canonicalization -/

/-- C8 counterexample: a non-empty input can canonicalize to the empty
string.  The raw key `!` consists of a single character that the first
cleaning step removes. -/
theorem cleanSpecificationKey_empty_on_nonempty :
    "!".toList ≠ [] ∧ cleanSpecificationKey "!".toList = [] := by decide

/-- C8 (amended): canonicalization is total, maps the empty string to the
empty string, and fixes every input made of lowercase ASCII letters only
(hence such non-empty inputs yield non-empty outputs); but a non-empty
input may canonicalize to the empty string. -/
theorem cleanSpecificationKey_total_behaviour :
    cleanSpecificationKey [] = [] ∧
      ∀ k : List Char, (∀ c ∈ k, 97 ≤ c.toNat ∧ c.toNat ≤ 122) →
        cleanSpecificationKey k = k := by
  refine ⟨rfl, fun k h => ?_⟩
  have hgood : GoodString k := by
    intro c hc
    have hc' := h c hc
    constructor
    · simp [isWordChar]
      omega
    · omega
  rw [cleanSpecificationKey_of_good hgood]
  have hund : ('_' : Char) ∉ k := by
    intro hmem
    have h1 := h _ hmem
    have h95 : ('_' : Char).toNat = 95 := by decide
    omega
  have hpre : ∀ p : List Char, ('_' : Char) ∈ p → p.isPrefixOf k = false := by
    intro p hp
    by_contra hcon
    have hcon' : p.isPrefixOf k = true := by revert hcon; cases p.isPrefixOf k <;> simp
    exact hund ((List.isPrefixOf_iff_prefix.mp hcon').sublist.subset hp)
  have hsuf : ∀ p : List Char, ('_' : Char) ∈ p → p.isSuffixOf k = false := by
    intro p hp
    by_contra hcon
    have hcon' : p.isSuffixOf k = true := by revert hcon; cases p.isSuffixOf k <;> simp
    exact hund ((List.isSuffixOf_iff_suffix.mp hcon').sublist.subset hp)
  rw [dropIfLeading_of_neg (hpre "intel_".toList (by decide)),
    dropIfLeading_of_neg (hpre "processor_".toList (by decide)),
    dropIfLeading_of_neg (hpre "cpu_".toList (by decide)),
    dropIfTrailing_of_neg (hsuf "_support".toList (by decide)),
    dropIfTrailing_of_neg (hsuf "_technology".toList (by decide))]

/-- C8 witness: the hypothesis and conclusion of
`cleanSpecificationKey_total_behaviour` at the concrete lowercase key
`cores`. -/
theorem cleanSpecificationKey_total_witness :
    (∀ c ∈ "cores".toList, 97 ≤ c.toNat ∧ c.toNat ≤ 122) ∧
      cleanSpecificationKey "cores".toList = "cores".toList :=
  ⟨by decide, cleanSpecificationKey_total_behaviour.2 _ (by decide)⟩

/-! ### C9: idempotence of the text normalizer -/

theorem collapseWsAux_idem :
    ∀ (l : List Char) (b : Bool), collapseWsAux b (collapseWsAux b l) = collapseWsAux b l
  | [], _ => rfl
  | a :: rest, b => by
    by_cases hs : isSpaceChar a = true
    · cases b with
      | true => simp only [collapseWsAux, hs, if_pos]; exact collapseWsAux_idem rest true
      | false =>
        simp only [collapseWsAux, hs, if_pos, if_neg]
        have hsp : isSpaceChar ' ' = true := by decide
        simp only [collapseWsAux, hsp, if_pos]
        rw [collapseWsAux_idem rest true]
    · have hs' : isSpaceChar a = false := by revert hs; cases isSpaceChar a <;> simp
      simp only [collapseWsAux, hs', Bool.false_eq_true, if_neg, if_false]
      rw [collapseWsAux_idem rest false]

theorem replaceUnicodeChar_fix {c d : Char} (h : d ∈ replaceUnicodeChar c) :
    replaceUnicodeChar d = [d] := by
  unfold replaceUnicodeChar at h
  split_ifs at h with h1 h2 h3 <;> simp at h
  · subst h; decide
  · rcases h with h | h | h | h <;> (subst h; decide)
  · rcases h with h | h | h <;> (subst h; decide)
  · subst h
    unfold replaceUnicodeChar
    rw [if_neg h1, if_neg h2, if_neg h3]

theorem flatten_map_of_fix :
    ∀ {X : List Char}, (∀ d ∈ X, replaceUnicodeChar d = [d]) →
      (X.map replaceUnicodeChar).flatten = X
  | [], _ => rfl
  | a :: rest, h => by
    simp only [List.map_cons, List.flatten_cons, h a (List.mem_cons_self _ _)]
    rw [flatten_map_of_fix fun d hd => h d (List.mem_cons_of_mem _ hd)]
    rfl

theorem replaceUnicodeChar_fix_of_mem_normalize {d : Char} {l : List Char}
    (h : d ∈ normalizeUnicodeText l) : replaceUnicodeChar d = [d] := by
  unfold normalizeUnicodeText collapseWs at h
  rcases mem_collapseWsAux _ _ h with h' | ⟨h1, -⟩
  · subst h'; decide
  · rw [List.mem_flatten] at h1
    obtain ⟨l1, hl1, hd⟩ := h1
    rw [List.mem_map] at hl1
    obtain ⟨c, -, rfl⟩ := hl1
    exact replaceUnicodeChar_fix hd

theorem normalizeUnicodeText_idem (l : List Char) :
    normalizeUnicodeText (normalizeUnicodeText l) = normalizeUnicodeText l := by
  have h := flatten_map_of_fix (X := normalizeUnicodeText l)
    fun d hd => replaceUnicodeChar_fix_of_mem_normalize hd
  calc normalizeUnicodeText (normalizeUnicodeText l)
      = collapseWs ((List.map replaceUnicodeChar (normalizeUnicodeText l)).flatten) := rfl
    _ = collapseWs (normalizeUnicodeText l) := by rw [h]
    _ = normalizeUnicodeText l := by
        unfold normalizeUnicodeText collapseWs
        exact collapseWsAux_idem _ _

theorem normalizeUnicodeTextS_idem (s : String) :
    normalizeUnicodeTextS (normalizeUnicodeTextS s) = normalizeUnicodeTextS s := by
  unfold normalizeUnicodeTextS
  exact congrArg String.mk (normalizeUnicodeText_idem s.data)

/-- C9: the text normalizer is idempotent, both on a single string and when
applied recursively to every string value nested in the categorized-specs
structure (and, being a pure function, it is side-effect-free). -/
theorem normalize_specification_unicode_idempotent :
    (∀ s : String, normalizeUnicodeTextS (normalizeUnicodeTextS s) = normalizeUnicodeTextS s) ∧
      ∀ specs : SpecDict,
        normalizeSpecificationUnicode (normalizeSpecificationUnicode specs) =
          normalizeSpecificationUnicode specs := by
  refine ⟨normalizeUnicodeTextS_idem, fun specs => ?_⟩
  unfold normalizeSpecificationUnicode
  rw [List.map_map]
  refine List.map_congr_left fun cd _ => ?_
  simp only [Function.comp_apply, List.map_map]
  refine congrArg _ (List.map_congr_left fun kv _ => ?_)
  simp only [Function.comp_apply, normalizeUnicodeTextS_idem]

/-! ### Association-list lemmas -/

theorem alGet_alSet_same {α : Type} (m : List (String × α)) (k : String) (v : α) :
    alGet (alSet m k v) k = some v := by
  induction m with
  | nil => simp [alSet, alGet]
  | cons kv rest ih =>
    obtain ⟨k1, v1⟩ := kv
    by_cases h : k1 = k
    · subst h; simp [alSet, alGet]
    · simp [alSet, alGet, h, ih]

theorem alGet_alSet_ne {α : Type} {k1 k : String} (hne : k1 ≠ k) (m : List (String × α))
    (v : α) : alGet (alSet m k1 v) k = alGet m k := by
  induction m with
  | nil => simp [alSet, alGet, hne]
  | cons kv rest ih =>
    obtain ⟨k2, v2⟩ := kv
    by_cases h : k2 = k1
    · subst h; simp [alSet, alGet, hne]
    · simp [alSet, alGet, h, ih]

theorem alGet_mem {α : Type} {m : List (String × α)} {k : String} {v : α}
    (h : alGet m k = some v) : (k, v) ∈ m := by
  induction m with
  | nil => simp [alGet] at h
  | cons kv rest ih =>
    obtain ⟨k1, v1⟩ := kv
    by_cases hk : k1 = k
    · subst hk
      simp [alGet] at h
      subst h
      exact List.mem_cons_self _ _
    · simp [alGet, hk] at h
      exact List.mem_cons_of_mem _ (ih h)

theorem alGet_map_value {α β : Type} (f : α → β) (m : List (String × α)) (k : String) :
    alGet (m.map (fun kv => (kv.1, f kv.2))) k = (alGet m k).map f := by
  induction m with
  | nil => rfl
  | cons kv rest ih =>
    obtain ⟨k1, v1⟩ := kv
    by_cases hk : k1 = k
    · subst hk; simp [alGet]
    · simp [alGet, hk, ih]

theorem alGet_alUpdate_notmem {α : Type} :
    ∀ (m2 m : List (String × α)) {k : String}, (∀ kv ∈ m2, kv.1 ≠ k) →
      alGet (alUpdate m m2) k = alGet m k
  | [], _, _, _ => rfl
  | kv0 :: rest, m, k, h => by
    unfold alUpdate
    simp only [List.foldl_cons]
    have hr := alGet_alUpdate_notmem rest (alSet m kv0.1 kv0.2)
      fun kv hkv => h kv (List.mem_cons_of_mem _ hkv)
    unfold alUpdate at hr
    rw [hr, alGet_alSet_ne (h kv0 (List.mem_cons_self _ _))]

/-! ### Lookup lemmas for the extractor merge -/

theorem specLookup_normalize (s : SpecDict) (c k : String) :
    specLookup (normalizeSpecificationUnicode s) c k =
      (specLookup s c k).map normalizeUnicodeTextS := by
  unfold specLookup normalizeSpecificationUnicode
  rw [alGet_map_value]
  cases alGet s c with
  | none => rfl
  | some d => exact alGet_map_value _ d k

theorem specLookup_specInsert_same (s : SpecDict) (c k v : String) :
    specLookup (specInsert s c k v) c k = some v := by
  cases h : alGet s c with
  | none => simp [specInsert, specLookup, h, alGet_alSet_same]
  | some d => simp [specInsert, specLookup, h, alGet_alSet_same]

theorem specLookup_specInsert_ne_key (s : SpecDict) {k1 k : String} (c1 c : String)
    (hk : k1 ≠ k) (v : String) :
    specLookup (specInsert s c1 k1 v) c k = specLookup s c k := by
  by_cases hc : c1 = c
  · subst hc
    cases h : alGet s c1 with
    | none => simp [specInsert, specLookup, h, alGet_alSet_same, alSet, alGet, hk]
    | some d => simp [specInsert, specLookup, h, alGet_alSet_same, alGet_alSet_ne hk]
  · cases h : alGet s c1 with
    | none => simp [specInsert, specLookup, h, alGet_alSet_ne hc]
    | some d => simp [specInsert, specLookup, h, alGet_alSet_ne hc]

theorem specLookup_mergeFlat_notmem :
    ∀ (flat : Dict) (s : SpecDict) (c k : String), (∀ kv ∈ flat, kv.1 ≠ k) →
      specLookup (mergeFlat s flat) c k = specLookup s c k
  | [], _, _, _, _ => rfl
  | kv0 :: rest, s, c, k, h => by
    unfold mergeFlat
    simp only [List.foldl_cons]
    have hr := specLookup_mergeFlat_notmem rest
      (specInsert s (categorizeSpecification kv0.1) kv0.1 kv0.2) c k
      fun kv hkv => h kv (List.mem_cons_of_mem _ hkv)
    unfold mergeFlat at hr
    rw [hr, specLookup_specInsert_ne_key _ _ _ (h kv0 (List.mem_cons_self _ _))]

theorem specLookup_mergeFlat_last (s : SpecDict) (l1 l2 : Dict) (k v : String)
    (hlast : ∀ kv ∈ l2, kv.1 ≠ k) :
    specLookup (mergeFlat s (l1 ++ (k, v) :: l2)) (categorizeSpecification k) k = some v := by
  unfold mergeFlat
  rw [List.foldl_append]
  simp only [List.foldl_cons]
  have hr := specLookup_mergeFlat_notmem l2
    (specInsert (mergeFlat s l1) (categorizeSpecification k) k v)
    (categorizeSpecification k) k hlast
  unfold mergeFlat at hr
  rw [hr, specLookup_specInsert_same]

/-! ### Lookup lemmas for the legacy stage -/

theorem specLookup_legacyFillStep_same (acc : SpecDict) (kv0 : String × String) :
    specLookup (legacyFillStep acc kv0) (chooseLegacyCategory kv0.1) kv0.1 = some kv0.2 := by
  unfold legacyFillStep specLookup
  simp only [alGet_alSet_same]

theorem specLookup_legacyFillStep_ne_key (acc : SpecDict) (kv0 : String × String)
    (c : String) {k : String} (hk : kv0.1 ≠ k) :
    specLookup (legacyFillStep acc kv0) c k = specLookup acc c k := by
  unfold legacyFillStep specLookup
  by_cases hc : chooseLegacyCategory kv0.1 = c
  · rw [hc]
    simp only [alGet_alSet_same]
    rw [alGet_alSet_ne hk]
    cases hb : alGet acc c with
    | none => simp [hb, alGet]
    | some d => simp [hb]
  · rw [alGet_alSet_ne hc]

theorem specLookup_legacyFillStep_ne_cat (acc : SpecDict) (kv0 : String × String)
    {c : String} (k : String) (hc : chooseLegacyCategory kv0.1 ≠ c) :
    specLookup (legacyFillStep acc kv0) c k = specLookup acc c k := by
  unfold legacyFillStep specLookup
  rw [alGet_alSet_ne hc]

theorem specLookup_legacyFill_ne (legacy : Dict) :
    ∀ (acc : SpecDict) {c k : String}, c ≠ chooseLegacyCategory k →
      specLookup (legacy.foldl legacyFillStep acc) c k = specLookup acc c k := by
  induction legacy with
  | nil => intro acc c k _; rfl
  | cons kv0 rest ih =>
    intro acc c k hc
    simp only [List.foldl_cons]
    rw [ih _ hc]
    by_cases h0 : chooseLegacyCategory kv0.1 = c
    · refine specLookup_legacyFillStep_ne_key acc kv0 c ?_
      intro he
      subst he
      exact hc h0.symm
    · exact specLookup_legacyFillStep_ne_cat acc kv0 k h0

theorem specLookup_legacyFill_some (legacy : Dict) :
    ∀ (acc : SpecDict) {k : String},
      ((∃ kv ∈ legacy, kv.1 = k) ∨
        (specLookup acc (chooseLegacyCategory k) k).isSome = true) →
      (specLookup (legacy.foldl legacyFillStep acc) (chooseLegacyCategory k) k).isSome = true := by
  induction legacy with
  | nil =>
    intro acc k h
    rcases h with h | h
    · simp at h
    · exact h
  | cons kv0 rest ih =>
    intro acc k h
    simp only [List.foldl_cons]
    apply ih
    by_cases hk0 : kv0.1 = k
    · right
      subst hk0
      rw [specLookup_legacyFillStep_same]
      rfl
    · rcases h with h | h
      · obtain ⟨kv, hkv, he⟩ := h
        rcases List.mem_cons.mp hkv with h' | h'
        · subst h'; exact absurd he hk0
        · exact Or.inl ⟨kv, h', he⟩
      · right
        rw [specLookup_legacyFillStep_ne_key acc kv0 _ hk0]
        exact h

theorem specLookup_empty_dicts {m : SpecDict} (h : ∀ cd ∈ m, cd.2 = []) (c k : String) :
    specLookup m c k = none := by
  unfold specLookup
  cases hb : alGet m c with
  | none => rfl
  | some d =>
    have hd : d = [] := h (c, d) (alGet_mem hb)
    rw [hd]
    rfl

theorem mem_alSet {α : Type} {m : List (String × α)} {kk : String} {vv : α}
    {e : String × α} (h : e ∈ alSet m kk vv) : e = (kk, vv) ∨ e ∈ m := by
  induction m with
  | nil => simp [alSet] at h; simp [h]
  | cons kv rest ih =>
    obtain ⟨k1, v1⟩ := kv
    by_cases hk : k1 = kk
    · subst hk
      simp [alSet] at h
      rcases h with h | h
      · exact Or.inl (by simp [h])
      · exact Or.inr (List.mem_cons_of_mem _ h)
    · simp [alSet, hk] at h
      rcases h with h | h
      · exact Or.inr (by simp [h])
      · rcases ih h with h' | h'
        · exact Or.inl h'
        · exact Or.inr (List.mem_cons_of_mem _ h')

theorem legacyFill_no_foreign_key :
    ∀ (legacy : Dict) (acc : SpecDict) {k : String},
      (∀ kv ∈ legacy, kv.1 ≠ k) →
      (∀ cd ∈ acc, ∀ kv ∈ cd.2, kv.1 ≠ k) →
      ∀ cd ∈ legacy.foldl legacyFillStep acc, ∀ kv ∈ cd.2, kv.1 ≠ k
  | [], _, _, _, hacc => hacc
  | kv0 :: rest, acc, k, hleg, hacc => by
    simp only [List.foldl_cons]
    refine legacyFill_no_foreign_key rest _ (fun kv hkv => hleg kv (List.mem_cons_of_mem _ hkv)) ?_
    intro cd hcd kv hkv
    unfold legacyFillStep at hcd
    rcases mem_alSet hcd with h' | h'
    · subst h'
      rcases mem_alSet hkv with h'' | h''
      · subst h''
        exact hleg kv0 (List.mem_cons_self _ _)
      · cases hb : alGet acc (chooseLegacyCategory kv0.1) with
        | none => rw [hb] at h''; simp at h''
        | some d =>
          rw [hb] at h''
          exact hacc _ (alGet_mem hb) kv h''
    · exact hacc cd h' kv hkv

theorem categorizeLegacy_no_foreign_key {legacy : Dict} {k : String}
    (h : ∀ kv ∈ legacy, kv.1 ≠ k) :
    ∀ cd ∈ categorizeLegacySpecifications legacy, ∀ kv ∈ cd.2, kv.1 ≠ k := by
  intro cd hcd
  unfold categorizeLegacySpecifications at hcd
  have hinit : ∀ cd2 ∈ initialSpecCategories, ∀ kv ∈ cd2.2, kv.1 ≠ k := by
    have hempty : ∀ cd2 ∈ initialSpecCategories, cd2.2 = ([] : Dict) := by decide
    intro cd2 hcd2 kv hkv
    rw [hempty cd2 hcd2] at hkv
    simp at hkv
  exact legacyFill_no_foreign_key legacy initialSpecCategories h hinit cd
    (List.mem_of_mem_filter hcd)

theorem specLookup_legacyFold (cl : SpecDict) :
    ∀ (s : SpecDict) {c k : String}, (∀ cd ∈ cl, ∀ kv ∈ cd.2, kv.1 ≠ k) →
      specLookup (legacyFold cl s) c k = specLookup s c k := by
  induction cl with
  | nil => intro s c k _; rfl
  | cons cd0 rest ih =>
    intro s c k h
    unfold legacyFold
    simp only [List.foldl_cons]
    have hr := ih (alSet s cd0.1 (alUpdate ((alGet s cd0.1).getD []) cd0.2))
      (c := c) (k := k) fun cd hcd => h cd (List.mem_cons_of_mem _ hcd)
    unfold legacyFold at hr
    rw [hr]
    unfold specLookup
    by_cases hc : cd0.1 = c
    · subst hc
      simp only [alGet_alSet_same]
      rw [alGet_alUpdate_notmem cd0.2 _ (h cd0 (List.mem_cons_self _ _))]
      cases hb : alGet s cd0.1 with
      | none => simp [hb, alGet]
      | some d => simp [hb]
    · rw [alGet_alSet_ne hc]

theorem specLookup_mergeLegacy (s : SpecDict) (legacy : Dict) {c k : String}
    (hleg : ∀ kv ∈ legacy, kv.1 ≠ k) (hc : c ≠ "legacy") :
    specLookup (mergeLegacy s legacy) c k = specLookup s c k := by
  have hcl := categorizeLegacy_no_foreign_key hleg
  unfold mergeLegacy
  split
  · exact specLookup_legacyFold _ s hcl
  · unfold specLookup
    rw [alGet_alSet_ne (Ne.symm hc)]
    have hr := specLookup_legacyFold (categorizeLegacySpecifications legacy) s
      (c := c) (k := k) hcl
    unfold specLookup at hr
    exact hr

theorem categorizeSpecification_ne_legacy (key : String) :
    categorizeSpecification key ≠ "legacy" := by
  unfold categorizeSpecification
  split_ifs <;> decide

/-! ### C1: merge precedence between the modern-row and generic-table
strategies -/

/-- C1 counterexample: when the modern-row (tech-section-row) strategy and
the generic-table strategy both produce the canonical key `total_cores`
with differing values `B` and `A`, the merged structure holds the
generic-table value `A`, not the modern-row value `B`: the table strategy
is merged after the tech-row strategy and overwrites it. -/
theorem extract_modern_row_value_not_kept :
    specLookup
        (extractSpecifications ⟨[], [("total_cores", "B")], [("total_cores", "A")], []⟩)
        "cpu_specifications" "total_cores" = some "A" ∧
      categorizeSpecification "total_cores" = "cpu_specifications" ∧
      specLookup
          (extractSpecifications ⟨[], [("total_cores", "B")], [("total_cores", "A")], []⟩)
          "cpu_specifications" "total_cores" ≠ some "B" := by decide

/-- C1 (amended): on a key collision between the modern-row strategy and
the generic-table strategy, the merged mapping holds the generic-table
value (the last table occurrence of the key), provided the legacy regex
strategy did not also produce that key. -/
theorem extract_table_overwrites_modern_row (o : StrategyOutputs) (k vB vA : String)
    (l1 l2 : Dict) (htable : o.tableSpecs = l1 ++ (k, vA) :: l2)
    (hlast : ∀ kv ∈ l2, kv.1 ≠ k)
    (htech : alGet o.techRowSpecs k = some vB)
    (hleg : ∀ kv ∈ o.legacySpecs, kv.1 ≠ k) :
    specLookup (extractSpecifications o) (categorizeSpecification k) k =
      some (normalizeUnicodeTextS vA) := by
  unfold extractSpecifications applyLegacyStage
  rw [specLookup_normalize]
  split
  · rw [htable, specLookup_mergeFlat_last _ _ _ _ _ hlast]
    rfl
  · rw [specLookup_mergeLegacy _ _ hleg (categorizeSpecification_ne_legacy k), htable,
      specLookup_mergeFlat_last _ _ _ _ _ hlast]
    rfl

/-- C1 witness: the amended merge-precedence theorem at the concrete
collision on `total_cores`. -/
theorem extract_table_overwrites_modern_row_witness :
    specLookup
        (extractSpecifications ⟨[], [("total_cores", "B")], [("total_cores", "A")], []⟩)
        (categorizeSpecification "total_cores") "total_cores" =
      some (normalizeUnicodeTextS "A") :=
  extract_table_overwrites_modern_row ⟨[], [("total_cores", "B")], [("total_cores", "A")], []⟩
    "total_cores" "B" "A" [] [] rfl (by simp) (by decide) (by simp)

/-! ### C3: each key lands in exactly one category -/

theorem nodup_fst_alSet {α : Type} :
    ∀ {m : List (String × α)}, (m.map Prod.fst).Nodup → ∀ (kk : String) (vv : α),
      ((alSet m kk vv).map Prod.fst).Nodup ∧
        ∀ n, n ∈ (alSet m kk vv).map Prod.fst → n ∈ m.map Prod.fst ∨ n = kk
  | [], _, kk, vv => by
    constructor
    · simp [alSet]
    · intro n hn
      simp [alSet] at hn
      simp [hn]
  | (k1, v1) :: rest, hm, kk, vv => by
    have hm1 : k1 ∉ rest.map Prod.fst := (List.nodup_cons.mp hm).1
    have hm2 : (rest.map Prod.fst).Nodup := (List.nodup_cons.mp hm).2
    by_cases hk : k1 = kk
    · subst hk
      refine ⟨?_, ?_⟩
      · simpa [alSet] using hm
      · intro n hn
        simp [alSet] at hn
        exact Or.inl (by simpa using hn)
    · obtain ⟨ih1, ih2⟩ := nodup_fst_alSet hm2 kk vv
      refine ⟨?_, ?_⟩
      · simp only [alSet, if_neg hk, List.map_cons, List.nodup_cons]
        refine ⟨?_, ih1⟩
        intro hmem
        rcases ih2 k1 hmem with h' | h'
        · exact hm1 h'
        · exact hk h'
      · intro n hn
        simp only [alSet, if_neg hk, List.map_cons, List.mem_cons] at hn
        rcases hn with h' | h'
        · exact Or.inl (by simp [h'])
        · rcases ih2 n h' with h'' | h''
          · exact Or.inl (by simp [h''])
          · exact Or.inr h''

theorem nodup_fst_legacyFill (legacy : Dict) :
    ∀ acc : SpecDict, (acc.map Prod.fst).Nodup →
      ((legacy.foldl legacyFillStep acc).map Prod.fst).Nodup := by
  induction legacy with
  | nil => intro acc h; exact h
  | cons kv0 rest ih =>
    intro acc h
    simp only [List.foldl_cons]
    exact ih _ (nodup_fst_alSet h _ _).1

theorem nodup_fst_categorizeLegacy (legacy : Dict) :
    ((categorizeLegacySpecifications legacy).map Prod.fst).Nodup := by
  unfold categorizeLegacySpecifications
  exact List.Nodup.sublist ((List.filter_sublist _).map Prod.fst)
    (nodup_fst_legacyFill legacy initialSpecCategories (by decide))

theorem alGet_of_mem_nodup {α : Type} :
    ∀ {m : List (String × α)}, (m.map Prod.fst).Nodup → ∀ {c : String} {d : α},
      (c, d) ∈ m → alGet m c = some d
  | [], _, _, _, h => by simp at h
  | (k1, v1) :: rest, hm, c, d, h => by
    rcases List.mem_cons.mp h with h' | h'
    · rw [show c = k1 from congrArg Prod.fst h',
        show d = v1 from congrArg Prod.snd h']
      simp [alGet]
    · have hk : k1 ≠ c := by
        intro he
        subst he
        exact (List.nodup_cons.mp hm).1
          (by simpa using List.mem_map_of_mem Prod.fst h')
      simp only [alGet, if_neg hk]
      exact alGet_of_mem_nodup (List.nodup_cons.mp hm).2 h'

/-- C3 counterexample: the assembled categorized-specs structure can hold
the same canonical key in two different category mappings: a key the
structured-section strategy filed under `essentials` is filed again under
`cpu_specifications` by the generic-table merge. -/
theorem assembled_specs_key_in_two_categories :
    specLookup
        (extractSpecifications
          ⟨[("essentials", [("total_cores", "4")])], [], [("total_cores", "8")], []⟩)
        "essentials" "total_cores" = some "4" ∧
      specLookup
          (extractSpecifications
            ⟨[("essentials", [("total_cores", "4")])], [], [("total_cores", "8")], []⟩)
          "cpu_specifications" "total_cores" = some "8" ∧
      ("essentials" : String) ≠ "cpu_specifications" := by decide

/-- C3 (amended): within the legacy-regex categorization step, every key of
the legacy result appears in exactly one category mapping — the first
category whose membership list contains it, with a supplemental fallback;
the category names of the result are distinct, exactly one of them holds
the key. -/
theorem categorizeLegacy_exactly_one (legacy : Dict) (k : String)
    (hk : ∃ kv ∈ legacy, kv.1 = k) :
    ((categorizeLegacySpecifications legacy).map Prod.fst).Nodup ∧
      ∀ c : String,
        (∃ d, alGet (categorizeLegacySpecifications legacy) c = some d ∧
            (alGet d k).isSome = true) ↔ c = chooseLegacyCategory k := by
  have hnodupFill : ((legacy.foldl legacyFillStep initialSpecCategories).map Prod.fst).Nodup :=
    nodup_fst_legacyFill legacy initialSpecCategories (by decide)
  refine ⟨nodup_fst_categorizeLegacy legacy, fun c => ⟨?_, ?_⟩⟩
  · rintro ⟨d, hget, hsome⟩
    by_contra hc
    have hmem : (c, d) ∈ legacy.foldl legacyFillStep initialSpecCategories :=
      List.mem_of_mem_filter (alGet_mem hget)
    have hgetFill := alGet_of_mem_nodup hnodupFill hmem
    have hnone : specLookup (legacy.foldl legacyFillStep initialSpecCategories) c k = none := by
      rw [specLookup_legacyFill_ne legacy _ hc]
      exact specLookup_empty_dicts (by decide) c k
    unfold specLookup at hnone
    rw [hgetFill] at hnone
    have hnone2 : alGet d k = none := hnone
    rw [hnone2] at hsome
    simp at hsome
  · rintro rfl
    have hs := specLookup_legacyFill_some legacy initialSpecCategories (Or.inl hk)
    unfold specLookup at hs
    cases hget : alGet (legacy.foldl legacyFillStep initialSpecCategories)
        (chooseLegacyCategory k) with
    | none => rw [hget] at hs; simp at hs
    | some d =>
      rw [hget] at hs
      refine ⟨d, ?_, hs⟩
      have hdne : (!d.isEmpty) = true := by
        cases d with
        | nil => simp [alGet] at hs
        | cons e rest => rfl
      exact alGet_of_mem_nodup (nodup_fst_categorizeLegacy legacy)
        (List.mem_filter.mpr ⟨alGet_mem hget, hdne⟩)

/-- C3 witness: the amended exactly-one theorem at the one-key legacy
result `total_cores`, which lands in `cpu_specifications` and only there. -/
theorem categorizeLegacy_exactly_one_witness :
    (∃ kv ∈ [(("total_cores" : String), ("8" : String))], kv.1 = "total_cores") ∧
      ∃ d, alGet (categorizeLegacySpecifications [("total_cores", "8")])
          "cpu_specifications" = some d ∧ (alGet d "total_cores").isSome = true :=
  ⟨by decide,
    ((categorizeLegacy_exactly_one [("total_cores", "8")] "total_cores" (by decide)).2
        "cpu_specifications").mpr (by decide)⟩

/-! ### C4: duplicate-safe insertion round trip -/

/-- C4: for a record with a fresh source identifier, insertion succeeds;
immediately re-inserting a record with the same `url` returns the soft
not-inserted signal `false` (not an exception) and leaves the stored-record
count unchanged.  (The record has its `url` and `name` fields present, as
every parser-assembled record does.) -/
theorem insert_then_reinsert_rejected (db : List InsertRow) (cpu cpu2 : CpuData)
    (u nm : String) (hu : cpu.url = some u) (hn : cpu.name = some nm)
    (hu2 : cpu2.url = some u) (hfresh : ∀ r ∈ db, r.url ≠ u) :
    (insertCpuSpecs db cpu).2 = true ∧
      (insertCpuSpecs (insertCpuSpecs db cpu).1 cpu2).2 = false ∧
      getCpuCount (insertCpuSpecs (insertCpuSpecs db cpu).1 cpu2).1 =
        getCpuCount (insertCpuSpecs db cpu).1 := by
  have hnot : dbHasUrl db u = false := by
    unfold dbHasUrl
    rw [List.any_eq_false]
    intro r hr
    simp [hfresh r hr]
  have h1 : insertCpuSpecs db cpu =
      (db ++ [buildInsertData u nm cpu.specifications], true) := by
    simp [insertCpuSpecs, insertCpuSpecsBody, hu, hn, hnot]
  have hrowurl : (buildInsertData u nm cpu.specifications).url = u := rfl
  have h2 : dbHasUrl (db ++ [buildInsertData u nm cpu.specifications]) u = true := by
    unfold dbHasUrl
    rw [List.any_eq_true]
    exact ⟨buildInsertData u nm cpu.specifications,
      List.mem_append_right _ (List.mem_cons_self _ _), by simp [hrowurl]⟩
  have h3 : insertCpuSpecs (db ++ [buildInsertData u nm cpu.specifications]) cpu2 =
      (db ++ [buildInsertData u nm cpu.specifications], false) := by
    simp [insertCpuSpecs, insertCpuSpecsBody, hu2, h2]
  rw [h1]
  rw [h3]
  exact ⟨rfl, rfl, rfl⟩

/-- C4 witness: the round trip at a concrete record and the empty store. -/
theorem insert_then_reinsert_witness :
    (insertCpuSpecs [] ⟨some "u1", some "n1", []⟩).2 = true ∧
      (insertCpuSpecs (insertCpuSpecs [] ⟨some "u1", some "n1", []⟩).1
          ⟨some "u1", some "n1", []⟩).2 = false ∧
      getCpuCount (insertCpuSpecs (insertCpuSpecs [] ⟨some "u1", some "n1", []⟩).1
          ⟨some "u1", some "n1", []⟩).1 =
        getCpuCount (insertCpuSpecs [] ⟨some "u1", some "n1", []⟩).1 :=
  insert_then_reinsert_rejected [] ⟨some "u1", some "n1", []⟩ ⟨some "u1", some "n1", []⟩
    "u1" "n1" rfl rfl rfl (by simp)

/-! ### C10: insertion never raises -/

/-- C10: the insert operation is a total function into a boolean result:
when its body raises (modelled as the `Except` error of a missing
dictionary key), the wrapper returns `false` with the store unchanged; and
whenever insert returns `false` — duplicate or internal error alike — the
store is unchanged, so the caller cannot distinguish the two cases from
the return value. -/
theorem insertCpuSpecs_soft_failure (db : List InsertRow) (cpu : CpuData) :
    (exceptIsOk (insertCpuSpecsBody db cpu) = false → insertCpuSpecs db cpu = (db, false)) ∧
      ((insertCpuSpecs db cpu).2 = false → (insertCpuSpecs db cpu).1 = db) := by
  cases hu : cpu.url with
  | none => simp [insertCpuSpecs, insertCpuSpecsBody, exceptIsOk, hu]
  | some u =>
    by_cases hd : dbHasUrl db u = true
    · simp [insertCpuSpecs, insertCpuSpecsBody, exceptIsOk, hu, hd]
    · have hd' : dbHasUrl db u = false := by revert hd; cases dbHasUrl db u <;> simp
      cases hn : cpu.name with
      | none => simp [insertCpuSpecs, insertCpuSpecsBody, exceptIsOk, hu, hd', hn]
      | some nm => simp [insertCpuSpecs, insertCpuSpecsBody, exceptIsOk, hu, hd', hn]

/-- C10 witness: a record whose dictionary lacks the `url` key makes the
body raise; the wrapper swallows the error and returns `false` with the
store unchanged. -/
theorem insertCpuSpecs_soft_failure_witness :
    insertCpuSpecs [] ⟨none, some "n1", []⟩ = ([], false) :=
  (insertCpuSpecs_soft_failure [] ⟨none, some "n1", []⟩).1 (by decide)

/-! ### C6: the modeling export requires base power and core count -/

/-- C6: every exported record has both a base-power and a total-core value
present, and a stored record lacking either never appears in the export. -/
theorem exportForModeling_requires_power_and_cores (db : List InsertRow) :
    (∀ e ∈ exportForModeling db,
        e.processor_base_power ≠ none ∧ e.total_cores ≠ none) ∧
      ∀ r ∈ db, (r.processor_base_power = none ∨ r.total_cores = none) →
        exportRowOf r ∉ exportForModeling db := by
  have hpart1 : ∀ e ∈ exportForModeling db,
      e.processor_base_power ≠ none ∧ e.total_cores ≠ none := by
    intro e he
    have hp := (List.mem_filter.mp he).2
    rw [Bool.and_eq_true] at hp
    constructor
    · intro hnone
      rw [hnone] at hp
      simp [optFloatTruthy] at hp
    · intro hnone
      rw [hnone] at hp
      simp [optNatTruthy] at hp
  refine ⟨hpart1, fun r hr hnone hmem => ?_⟩
  have h1 := hpart1 _ hmem
  rcases hnone with h | h
  · exact h1.1 (by rw [show (exportRowOf r).processor_base_power =
      r.processor_base_power from rfl, h])
  · exact h1.2 (by rw [show (exportRowOf r).total_cores = r.total_cores from rfl, h])

/-- C6 witness: a stored row with no base-power value is absent from the
export of the one-row store holding it. -/
theorem exportForModeling_requires_power_witness :
    ((buildInsertData "u1" "n1" []).processor_base_power = none ∨
        (buildInsertData "u1" "n1" []).total_cores = none) ∧
      exportRowOf (buildInsertData "u1" "n1" []) ∉
        exportForModeling [buildInsertData "u1" "n1" []] :=
  ⟨Or.inl (by decide),
    (exportForModeling_requires_power_and_cores [buildInsertData "u1" "n1" []]).2 _
      (List.mem_cons_self _ _) (Or.inl (by decide))⟩

/-! ### C5: the legacy-architecture fallback -/

/-- C5 counterexample: with `total_cores = 8`, no performance/efficiency
keys, a present `performance_core_max_frequency`-free record and a
`max_turbo_frequency` of `0 GHz`, the claim's mirroring clause demands
`performance_core_max_frequency = 0`, but the assembled record leaves it
absent: the code tests truthiness, and a zero parse is falsy. -/
theorem legacy_zero_frequency_not_mirrored :
    safeInt (alGet (mergeAllSpecs specsZeroFreqEx) "total_cores") = some 8 ∧
      alGet (mergeAllSpecs specsZeroFreqEx) "performance_cores" = none ∧
      alGet (mergeAllSpecs specsZeroFreqEx) "efficiency_cores" = none ∧
      alGet (mergeAllSpecs specsZeroFreqEx) "performance_core_max_frequency" = none ∧
      safeFloat (alGet (mergeAllSpecs specsZeroFreqEx) "max_turbo_frequency") = some ⟨0, 0⟩ ∧
      (buildInsertData "u1" "n1" specsZeroFreqEx).performance_core_max_frequency ≠
        some ⟨0, 0⟩ ∧
      (buildInsertData "u1" "n1" specsZeroFreqEx).performance_core_max_frequency = none := by
  decide

/-- C5 (amended): with merged `total_cores = 8` and no performance- or
efficiency-core keys, the assembled record has `performance_cores = 8` and
`efficiency_cores = 0`; and each general frequency is mirrored into the
corresponding performance-core frequency provided it parses to a nonzero
value and the performance-core frequency parses to nothing (or zero) — a
zero parse of the general frequency is treated as absent and not
mirrored. -/
theorem buildInsertData_legacy_fallback (u nm : String) (specs : SpecDict)
    (ht : safeInt (alGet (mergeAllSpecs specs) "total_cores") = some 8)
    (hp : alGet (mergeAllSpecs specs) "performance_cores" = none)
    (he : alGet (mergeAllSpecs specs) "efficiency_cores" = none) :
    (buildInsertData u nm specs).performance_cores = some 8 ∧
      (buildInsertData u nm specs).efficiency_cores = some 0 ∧
      (∀ q : DecimalVal, q.num ≠ 0 →
        safeFloat (alGet (mergeAllSpecs specs) "max_turbo_frequency") = some q →
        optFloatTruthy (safeFloat
          (alGet (mergeAllSpecs specs) "performance_core_max_frequency")) = false →
        (buildInsertData u nm specs).performance_core_max_frequency = some q) ∧
      (∀ q : DecimalVal, q.num ≠ 0 →
        safeFloat (alGet (mergeAllSpecs specs) "base_frequency") = some q →
        optFloatTruthy (safeFloat
          (alGet (mergeAllSpecs specs) "performance_core_base_frequency")) = false →
        (buildInsertData u nm specs).performance_core_base_frequency = some q) := by
  have hleg : (optNatTruthy (safeInt (alGet (mergeAllSpecs specs) "total_cores")) &&
      !optNatTruthy (safeInt (alGet (mergeAllSpecs specs) "performance_cores")) &&
      !optNatTruthy (safeInt (alGet (mergeAllSpecs specs) "efficiency_cores"))) = true := by
    rw [ht, hp, he]
    decide
  refine ⟨?_, ?_, ?_, ?_⟩
  · show (if (optNatTruthy _ && !optNatTruthy _ && !optNatTruthy _) = true then
        safeInt (alGet (mergeAllSpecs specs) "total_cores")
      else safeInt (alGet (mergeAllSpecs specs) "performance_cores")) = some 8
    rw [if_pos hleg, ht]
  · show (if (optNatTruthy _ && !optNatTruthy _ && !optNatTruthy _) = true then
        some 0 else safeInt (alGet (mergeAllSpecs specs) "efficiency_cores")) = some 0
    rw [if_pos hleg]
  · intro q hq hmax hpn
    show (if ((optNatTruthy _ && !optNatTruthy _ && !optNatTruthy _) &&
          optFloatTruthy (safeFloat (alGet (mergeAllSpecs specs) "max_turbo_frequency")) &&
          !optFloatTruthy (safeFloat
            (alGet (mergeAllSpecs specs) "performance_core_max_frequency"))) = true then
        safeFloat (alGet (mergeAllSpecs specs) "max_turbo_frequency")
      else safeFloat (alGet (mergeAllSpecs specs) "performance_core_max_frequency")) = some q
    rw [if_pos (by rw [hleg, hmax, hpn]; simp [optFloatTruthy, hq]), hmax]
  · intro q hq hbase hpn
    show (if ((optNatTruthy _ && !optNatTruthy _ && !optNatTruthy _) &&
          optFloatTruthy (safeFloat (alGet (mergeAllSpecs specs) "base_frequency")) &&
          !optFloatTruthy (safeFloat
            (alGet (mergeAllSpecs specs) "performance_core_base_frequency"))) = true then
        safeFloat (alGet (mergeAllSpecs specs) "base_frequency")
      else safeFloat (alGet (mergeAllSpecs specs) "performance_core_base_frequency")) = some q
    rw [if_pos (by rw [hleg, hbase, hpn]; simp [optFloatTruthy, hq]), hbase]

/-- C5 witness: the legacy fallback at a concrete record with eight total
cores, no performance/efficiency split and nonzero general frequencies. -/
theorem buildInsertData_legacy_fallback_witness :
    safeInt (alGet (mergeAllSpecs specsLegacyEx) "total_cores") = some 8 ∧
      (buildInsertData "u1" "n1" specsLegacyEx).performance_cores = some 8 ∧
      (buildInsertData "u1" "n1" specsLegacyEx).efficiency_cores = some 0 ∧
      (buildInsertData "u1" "n1" specsLegacyEx).performance_core_max_frequency =
        some ⟨35, 1⟩ ∧
      (buildInsertData "u1" "n1" specsLegacyEx).performance_core_base_frequency =
        some ⟨20, 1⟩ := by
  have h := buildInsertData_legacy_fallback "u1" "n1" specsLegacyEx
    (by decide) (by decide) (by decide)
  exact ⟨by decide, h.1, h.2.1,
    h.2.2.1 ⟨35, 1⟩ (by decide) (by decide) (by decide),
    h.2.2.2 ⟨20, 1⟩ (by decide) (by decide) (by decide)⟩

/-! ### C7: the process-node resolver on its two reference inputs -/

/-- C7: from the text `Lithography: 10 nm` the resolver extracts and
validates `10 nm` (a whitelisted node shape); the candidate `Intel 64` is
rejected by the value cleaner as a known non-process term, and pairing it
with a lithography label — in the page text and in a table row — still
yields no process node. -/
theorem lithography_resolver_examples :
    extractLithographyEnhanced "Lithography: 10 nm".toList [] [] = some "10 nm".toList ∧
      cleanLithographyValue "Intel 64".toList = none ∧
      extractLithographyEnhanced "Lithography: Intel 64".toList
        [("Lithography".toList, "Intel 64".toList)] [] = none := by decide

end CpuCrawler
